import Mathlib

/-!
Shallow embedding of the neon minibatch loader (`loader.hpp`): the decode
worker pool's batch partition, the per-worker decode body, the manager's
produce step, the read thread's produce step, and the `Loader` lifecycle
operations, together with theorems settling the specification claims.

All integer quantities in the C++ source are nonnegative `int`s well below
overflow, so they are embedded as `Nat`; C integer division `(b - 1) / c + 1`
on positive operands coincides with `Nat` division here.
-/

namespace Neon

/-- `_itemsPerThread` as computed in the `DecodeThreadPool` constructor:
`(batchSize - 1) / count + 1` (integer ceiling division for positive inputs). -/
def itemsPerThread (batchSize count : Nat) : Nat :=
  (batchSize - 1) / count + 1

/-- The `itemsPerThread` local of `Loader::start`:
`(batchSize - 1) / numCores + 1`. -/
def startItemsPerThread (batchSize numCores : Nat) : Nat :=
  (batchSize - 1) / numCores + 1

/-- The worker count chosen in `Loader::start`:
`threadCount = (batchSize - 1) / itemsPerThread + 1` clamped by
`std::min(threadCount, batchSize)`. -/
def threadCount (batchSize numCores : Nat) : Nat :=
  min ((batchSize - 1) / startItemsPerThread batchSize numCores + 1) batchSize

/-- `_startInds[id] = id * _itemsPerThread` (set in `DecodeThreadPool::run`). -/
def startInd (batchSize count id : Nat) : Nat :=
  id * itemsPerThread batchSize count

/-- The `itemCount` local of `DecodeThreadPool::run`: `_itemsPerThread` for all
workers except the last, which gets `batchSize - id * _itemsPerThread`. -/
def itemCount (batchSize count id : Nat) : Nat :=
  if id = count - 1 then batchSize - id * itemsPerThread batchSize count
  else itemsPerThread batchSize count

/-- `_endInds[id] = _startInds[id] + itemCount` (set in `DecodeThreadPool::run`). -/
def endInd (batchSize count id : Nat) : Nat :=
  startInd batchSize count id + itemCount batchSize count id

/-- `_dataOffsets[id] = _startInds[id] * _datumSize`. -/
def dataOffset (batchSize count datumSize id : Nat) : Nat :=
  startInd batchSize count id * datumSize

/-- `_targetOffsets[id] = _startInds[id] * _targetSize`. -/
def targetOffset (batchSize count targetSize id : Nat) : Nat :=
  startInd batchSize count id * targetSize

/-- `_targetSpans[id] = itemCount * _targetSize`. -/
def targetSpan (batchSize count targetSize id : Nat) : Nat :=
  itemCount batchSize count id * targetSize

/-- The first constructor assertion `_itemsPerThread * count >= _batchSize`
holds for every positive worker count. -/
lemma itemsPerThread_mul_count_ge (b N : Nat) (hb : 1 ≤ b) (hN : 1 ≤ N) :
    b ≤ itemsPerThread b N * N := by
  unfold itemsPerThread
  have h := Nat.div_add_mod (b - 1) N
  have hm : (b - 1) % N < N := Nat.mod_lt _ hN
  have hexp : ((b - 1) / N + 1) * N = N * ((b - 1) / N) + N := by ring
  rw [hexp]
  set p := N * ((b - 1) / N) with hp
  omega

/-- `Loader::start` never picks more workers than `batchSize`. -/
lemma threadCount_le_batchSize (b K : Nat) : threadCount b K ≤ b :=
  Nat.min_le_right _ _

lemma threadCount_pos (b K : Nat) (hb : 1 ≤ b) : 1 ≤ threadCount b K := by
  unfold threadCount
  exact le_min (Nat.succ_le_succ (Nat.zero_le _)) hb

/-- The second constructor assertion `_itemsPerThread * (count - 1) < _batchSize`
holds for the worker count chosen by `Loader::start`. -/
lemma itemsPerThread_mul_pred_lt (b K : Nat) (hb : 1 ≤ b) (hK : 1 ≤ K) :
    itemsPerThread b (threadCount b K) * (threadCount b K - 1) < b := by
  set q := startItemsPerThread b K with hq
  have hq1 : 1 ≤ q := Nat.succ_le_succ (Nat.zero_le _)
  set N0 := (b - 1) / q + 1 with hN0
  have hN0le : N0 ≤ b := by
    have : (b - 1) / q ≤ b - 1 := Nat.div_le_self _ _
    omega
  have hNeq : threadCount b K = N0 := by
    unfold threadCount
    rw [← hq, ← hN0]
    exact Nat.min_eq_left hN0le
  rw [hNeq]
  have hN0pos : 1 ≤ N0 := Nat.succ_le_succ (Nat.zero_le _)
  -- itemsPerThread b N0 ≤ q
  have hPle : itemsPerThread b N0 ≤ q := by
    unfold itemsPerThread
    have hdiv : (b - 1) / N0 < q := by
      rw [Nat.div_lt_iff_lt_mul hN0pos]
      have h := Nat.div_add_mod (b - 1) q
      have hm : (b - 1) % q < q := Nat.mod_lt _ hq1
      have hexp : q * N0 = q * ((b - 1) / q) + q := by rw [hN0]; ring
      rw [hexp]
      set p := q * ((b - 1) / q) with hp
      omega
    omega
  -- q * (N0 - 1) ≤ b - 1
  have hqN : q * (N0 - 1) ≤ b - 1 := by
    have hsub : N0 - 1 = (b - 1) / q := by omega
    rw [hsub]
    exact Nat.mul_div_le _ _
  calc itemsPerThread b N0 * (N0 - 1)
      ≤ q * (N0 - 1) := Nat.mul_le_mul_right _ hPle
    _ ≤ b - 1 := hqN
    _ < b := by omega

/-- No worker's item range is empty once the two constructor assertions hold:
for every `id < count`, `startInd < endInd`. -/
lemma startInd_lt_endInd (b N id : Nat) (hb : 1 ≤ b) (hN : 1 ≤ N)
    (h2 : itemsPerThread b N * (N - 1) < b) (hid : id < N) :
    startInd b N id < endInd b N id := by
  simp only [endInd, startInd, itemCount]
  by_cases hlast : id = N - 1
  · subst hlast
    simp only [if_true, eq_self_iff_true]
    have hmul : (N - 1) * itemsPerThread b N < b := by
      rw [Nat.mul_comm]; exact h2
    omega
  · simp only [if_neg hlast]
    have h1 : 1 ≤ itemsPerThread b N := Nat.succ_le_succ (Nat.zero_le _)
    omega

/-- For every worker but the last, `endInd` is `(id + 1) * itemsPerThread`. -/
lemma endInd_of_lt_pred (b N id : Nat) (hid : id + 1 < N) :
    endInd b N id = (id + 1) * itemsPerThread b N := by
  have hne : id ≠ N - 1 := by omega
  simp only [endInd, startInd, itemCount, if_neg hne]
  ring

/-- The last worker's `endInd` is exactly `batchSize`. -/
lemma endInd_last (b N : Nat) (hN : 1 ≤ N)
    (h2 : itemsPerThread b N * (N - 1) < b) :
    endInd b N (N - 1) = b := by
  simp only [endInd, startInd, itemCount, if_true, eq_self_iff_true]
  have hmul : (N - 1) * itemsPerThread b N < b := by
    rw [Nat.mul_comm]; exact h2
  omega

/-- Adjacent worker ranges chain: `endInd id = startInd (id + 1)`. -/
lemma endInd_eq_startInd_succ (b N id : Nat) (hid : id + 1 < N) :
    endInd b N id = startInd b N (id + 1) := by
  rw [endInd_of_lt_pred b N id hid]; rfl

/-- Every worker's range stays within the batch: `endInd id ≤ batchSize`. -/
lemma endInd_le_batchSize (b N id : Nat) (hN : 1 ≤ N)
    (h2 : itemsPerThread b N * (N - 1) < b) (hid : id < N) :
    endInd b N id ≤ b := by
  by_cases hlast : id + 1 < N
  · rw [endInd_of_lt_pred b N id hlast]
    have hle : (id + 1) * itemsPerThread b N ≤ (N - 1) * itemsPerThread b N :=
      Nat.mul_le_mul_right _ (by omega)
    have hmul : (N - 1) * itemsPerThread b N < b := by
      rw [Nat.mul_comm]; exact h2
    omega
  · have : id = N - 1 := by omega
    rw [this, endInd_last b N hN h2]

/-- The source's `endInd` coincides with the specification's
`min ((id + 1) * itemsPerThread) batchSize`. -/
lemma endInd_eq_min (b N id : Nat) (hN : 1 ≤ N)
    (h2 : itemsPerThread b N * (N - 1) < b) (hid : id < N) :
    endInd b N id = min ((id + 1) * itemsPerThread b N) b := by
  by_cases hlast : id + 1 < N
  · rw [endInd_of_lt_pred b N id hlast]
    have hle : (id + 1) * itemsPerThread b N ≤ (N - 1) * itemsPerThread b N :=
      Nat.mul_le_mul_right _ (by omega)
    have hmul : (N - 1) * itemsPerThread b N < b := by
      rw [Nat.mul_comm]; exact h2
    exact (Nat.min_eq_left (by omega)).symm
  · have hidl : id = N - 1 := by omega
    subst hidl
    rw [endInd_last b N hN h2]
    have hge : b ≤ (N - 1 + 1) * itemsPerThread b N := by
      have := itemsPerThread_mul_count_ge b N (by omega) hN
      have hN1 : N - 1 + 1 = N := by omega
      rw [hN1, Nat.mul_comm]
      exact this
    exact (Nat.min_eq_right hge).symm

/-- Worker item ranges are ordered: `id1 < id2` implies
`endInd id1 ≤ startInd id2`. -/
lemma endInd_le_startInd (b N id1 id2 : Nat) (h12 : id1 < id2) (hid2 : id2 < N) :
    endInd b N id1 ≤ startInd b N id2 := by
  have h1 : id1 + 1 < N := by omega
  rw [endInd_of_lt_pred b N id1 h1]
  exact Nat.mul_le_mul_right _ (by omega)

/-- Every item index of the batch is covered by some worker's range. -/
lemma exists_covering_worker (b N i : Nat) (hb : 1 ≤ b) (hN : 1 ≤ N)
    (h2 : itemsPerThread b N * (N - 1) < b) (hi : i < b) :
    ∃ id < N, startInd b N id ≤ i ∧ i < endInd b N id := by
  set P := itemsPerThread b N with hP
  have hPpos : 1 ≤ P := Nat.succ_le_succ (Nat.zero_le _)
  by_cases hcase : i / P + 1 < N
  · refine ⟨i / P, by omega, ?_, ?_⟩
    · show i / P * P ≤ i
      rw [Nat.mul_comm]
      exact Nat.mul_div_le i P
    · rw [endInd_of_lt_pred b N (i / P) hcase]
      have h := Nat.div_add_mod i P
      have hm : i % P < P := Nat.mod_lt _ hPpos
      have hexp : (i / P + 1) * P = P * (i / P) + P := by ring
      rw [hexp]
      set p := P * (i / P) with hp
      omega
  · refine ⟨N - 1, by omega, ?_, ?_⟩
    · show (N - 1) * P ≤ i
      have hle : (N - 1) * P ≤ (i / P) * P := Nat.mul_le_mul_right _ (by omega)
      have : (i / P) * P ≤ i := by
        rw [Nat.mul_comm]; exact Nat.mul_div_le i P
      omega
    · rw [endInd_last b N hN h2]
      exact hi

/-- C4 numeric facts bundled: for any `batchSize ≥ 1` and
`hardware_concurrency ≥ 1`, the worker count `N` from `Loader::start` and the
pool's recomputed `itemsPerThread` satisfy both constructor assertions, `N` is
clamped by `batchSize`, and no worker's range is empty. -/
lemma threadCount_partition_sound (b K : Nat) (hb : 1 ≤ b) (hK : 1 ≤ K) :
    b ≤ itemsPerThread b (threadCount b K) * threadCount b K ∧
    itemsPerThread b (threadCount b K) * (threadCount b K - 1) < b ∧
    threadCount b K ≤ b ∧
    ∀ id < threadCount b K,
      startInd b (threadCount b K) id < endInd b (threadCount b K) id := by
  have hN : 1 ≤ threadCount b K := threadCount_pos b K hb
  have h2 := itemsPerThread_mul_pred_lt b K hb hK
  exact ⟨itemsPerThread_mul_count_ge b (threadCount b K) hb hN, h2,
    threadCount_le_batchSize b K,
    fun id hid => startInd_lt_endInd b (threadCount b K) id hb hN h2 hid⟩

/-- A contiguous overwrite of `bs` into `buf` starting at byte offset `off`:
the effect of a `memcpy` (or of `media->transform` writing `datumSize` bytes)
into a larger buffer. -/
def writeBytes (buf : List Nat) (off : Nat) (bs : List Nat) : List Nat :=
  buf.take off ++ bs ++ buf.drop (off + bs.length)

lemma writeBytes_length (buf bs : List Nat) (off : Nat)
    (h : off + bs.length ≤ buf.length) :
    (writeBytes buf off bs).length = buf.length := by
  simp only [writeBytes, List.length_append, List.length_take, List.length_drop]
  omega

/-- Bytes strictly before the written region are untouched. -/
lemma writeBytes_take (buf bs : List Nat) (off n : Nat) (hn : n ≤ off)
    (h : off ≤ buf.length) :
    (writeBytes buf off bs).take n = buf.take n := by
  unfold writeBytes
  rw [List.append_assoc (buf.take off)]
  rw [List.take_append_of_le_length (by rw [List.length_take]; omega)]
  rw [List.take_take]
  congr 1
  omega

/-- Bytes at or beyond the end of the written region are untouched. -/
lemma writeBytes_drop (buf bs : List Nat) (off n : Nat)
    (hn : off + bs.length ≤ n) (h : off + bs.length ≤ buf.length) :
    (writeBytes buf off bs).drop n = buf.drop n := by
  unfold writeBytes
  have hlen : (buf.take off ++ bs).length = off + bs.length := by
    rw [List.length_append, List.length_take]
    omega
  have hsplit : n = (buf.take off ++ bs).length + (n - (off + bs.length)) := by
    omega
  rw [hsplit, List.drop_append, List.drop_drop]
  congr 1
  omega

/-- The per-item loop of `DecodeThreadPool::work`
(`for (int i = start; i < end; i++) { ... getItem ... transform ... }`),
processing the listed item indices in order. Item `i` is written at byte
offset `i * datumSize` of the output data half (the running `dataBuf` pointer
starts at `_dataOffsets[id]` and advances by `_datumSize` per item). Returns
the buffer together with `false` when `getItem` returned a null pointer (the
loop's early `return`), `true` when every item was transformed. -/
def decodeItems (datumSize : Nat) (getItem : Nat → Option (List Nat))
    (transform : List Nat → List Nat) :
    List Nat → List Nat → List Nat × Bool
  | [], buf => (buf, true)
  | i :: rest, buf =>
    match getItem i with
    | none => (buf, false)
    | some item =>
        decodeItems datumSize getItem transform rest
          (writeBytes buf (i * datumSize) (transform item))

/-- Complete-run characterization of the decode loop: when `getItem` yields
every requested item and `transform` produces exactly `datumSize` bytes, the
loop fills bytes `[a·d, (a+k)·d)` of the output with the concatenated
transforms, leaves every other byte alone, and reports completion. -/
lemma decodeItems_range' (d : Nat) (getItem : Nat → Option (List Nat))
    (transform : List Nat → List Nat) (f : Nat → List Nat) (k a : Nat)
    (buf : List Nat)
    (hget : ∀ i, a ≤ i → i < a + k → getItem i = some (f i))
    (hT : ∀ i, a ≤ i → i < a + k → (transform (f i)).length = d)
    (hlen : (a + k) * d ≤ buf.length) :
    decodeItems d getItem transform (List.range' a k) buf
      = (buf.take (a * d)
          ++ ((List.range' a k).map fun i => transform (f i)).flatten
          ++ buf.drop ((a + k) * d), true) := by
  induction k generalizing a buf with
  | zero =>
      simp only [List.range', decodeItems, List.map_nil, List.flatten_nil,
        List.append_nil, Nat.add_zero]
      rw [List.take_append_drop]
  | succ k ih =>
      rw [List.range'_succ]
      have hga : getItem a = some (f a) := hget a (le_refl a) (by omega)
      have hTa : (transform (f a)).length = d := hT a (le_refl a) (by omega)
      have harith : (a + (k + 1)) * d = a * d + d + k * d := by ring
      have had : a * d + d ≤ buf.length := by omega
      simp only [decodeItems, hga]
      set T := transform (f a) with hTdef
      set buf1 := writeBytes buf (a * d) T with hbuf1
      have hbuf1len : buf1.length = buf.length := by
        rw [hbuf1]
        exact writeBytes_length buf T (a * d) (by omega)
      have harith2 : (a + 1 + k) * d = a * d + d + k * d := by ring
      rw [ih (a + 1) buf1 (fun i h1 h2 => hget i (by omega) (by omega))
        (fun i h1 h2 => hT i (by omega) (by omega)) (by omega)]
      have htake : buf1.take ((a + 1) * d) = buf.take (a * d) ++ T := by
        have hX : (buf.take (a * d)).length = a * d := by
          rw [List.length_take]; omega
        have hXT : (buf.take (a * d) ++ T).length = (a + 1) * d := by
          rw [List.length_append, hX, hTa]; ring
        rw [hbuf1]
        unfold writeBytes
        rw [hTa, ← hXT, List.take_left]
      have hdrop : buf1.drop ((a + 1 + k) * d) = buf.drop ((a + (k + 1)) * d) := by
        rw [harith2, ← harith, hbuf1]
        exact writeBytes_drop buf T (a * d) _ (by omega) (by omega)
      rw [htake, hdrop, List.map_cons, List.flatten_cons]
      simp only [List.append_assoc, Nat.mul_comm]

/-- Frame property of the decode loop, holding on the early-return path as
well: the loop never touches bytes outside `[a·d, (a+k)·d)` and preserves the
buffer's length. -/
lemma decodeItems_frame (d : Nat) (getItem : Nat → Option (List Nat))
    (transform : List Nat → List Nat)
    (hT : ∀ x, (transform x).length = d) (k a : Nat) (buf : List Nat)
    (hlen : (a + k) * d ≤ buf.length) :
    (decodeItems d getItem transform (List.range' a k) buf).1.length = buf.length
    ∧ (∀ n, n ≤ a * d →
        (decodeItems d getItem transform (List.range' a k) buf).1.take n
          = buf.take n)
    ∧ (∀ n, (a + k) * d ≤ n →
        (decodeItems d getItem transform (List.range' a k) buf).1.drop n
          = buf.drop n) := by
  induction k generalizing a buf with
  | zero =>
      simp only [List.range', decodeItems]
      exact ⟨trivial, fun n _ => trivial, fun n _ => trivial⟩
  | succ k ih =>
      rw [List.range'_succ]
      have harith : (a + (k + 1)) * d = a * d + d + k * d := by ring
      have harith2 : (a + 1 + k) * d = a * d + d + k * d := by ring
      cases hga : getItem a with
      | none =>
          simp only [decodeItems, hga]
          exact ⟨trivial, fun n _ => trivial, fun n _ => trivial⟩
      | some item =>
          simp only [decodeItems, hga]
          set T := transform item with hTdef
          have hTl : T.length = d := hT item
          set buf1 := writeBytes buf (a * d) T with hbuf1
          have hbuf1len : buf1.length = buf.length := by
            rw [hbuf1]
            exact writeBytes_length buf T (a * d) (by omega)
          have hsucc : (a + 1) * d = a * d + d := by ring
          obtain ⟨ihlen, ihtake, ihdrop⟩ :=
            ih (a + 1) buf1 (by omega)
          refine ⟨by rw [ihlen, hbuf1len], ?_, ?_⟩
          · intro n hn
            rw [ihtake n (by omega), hbuf1]
            exact writeBytes_take buf T (a * d) n hn (by omega)
          · intro n hn
            rw [ihdrop n (by omega), hbuf1]
            exact writeBytes_drop buf T (a * d) n (by omega) (by omega)

/-- Length of a run of concatenated fixed-size blocks. -/
lemma flatten_map_range'_length (g : Nat → List Nat) (d : Nat) (k a : Nat)
    (hg : ∀ i, a ≤ i → i < a + k → (g i).length = d) :
    (((List.range' a k).map g).flatten).length = k * d := by
  induction k generalizing a with
  | zero => simp [List.range']
  | succ k ih =>
      rw [List.range'_succ, List.map_cons, List.flatten_cons, List.length_append]
      rw [hg a (le_refl a) (by omega), ih (a + 1) (fun i h1 h2 => hg i (by omega) (by omega))]
      ring

/-- The mutable state a decode worker touches: the output pair's two halves
(`outBuf.first->_data`, `outBuf.second->_data`) and the shared `_endSignaled`
counter. -/
structure WorkState where
  dataBuf : List Nat
  targetBuf : List Nat
  endSignaled : Nat
deriving DecidableEq, Repr

/-- The body of `DecodeThreadPool::work` for worker `id`, after the start
signal has been consumed: decode the items of `[startInd id, endInd id)` into
the data half (early `return` when `getItem` yields a null item, leaving
`_endSignaled` untouched), then copy `_targetSpans[id]` target bytes from the
input target half at item `startInd id` to `_targetOffsets[id]`, and increment
`_endSignaled`. -/
def work (batchSize count datumSize targetSize : Nat)
    (getItem : Nat → Option (List Nat)) (transform : List Nat → List Nat)
    (targetSrc : List Nat) (id : Nat) (s : WorkState) : WorkState :=
  match decodeItems datumSize getItem transform
      (List.range' (startInd batchSize count id) (itemCount batchSize count id))
      s.dataBuf with
  | (buf2, false) => { s with dataBuf := buf2 }
  | (buf2, true) =>
      { dataBuf := buf2
        targetBuf :=
          writeBytes s.targetBuf (targetOffset batchSize count targetSize id)
            ((targetSrc.drop (startInd batchSize count id * targetSize)).take
              (targetSpan batchSize count targetSize id))
        endSignaled := s.endSignaled + 1 }

/-- One whole minibatch decode: every worker's body, in worker order. The
workers run concurrently in the source, but write pairwise disjoint regions
(the partition invariant), so the sequential composition computes the same
output pair. -/
def decodeBatch (batchSize count datumSize targetSize : Nat)
    (getItem : Nat → Option (List Nat)) (transform : List Nat → List Nat)
    (targetSrc : List Nat) (s : WorkState) : WorkState :=
  (List.range count).foldl
    (fun st id =>
      work batchSize count datumSize targetSize getItem transform targetSrc id st)
    s

/-- Modelled from the spec: `Matrix<char>::transpose` lives in `matrix.hpp`,
which is not among the sources; §4.5 states the data half is reinterpreted
from `batchSize` rows of `datumSize` bytes to `datumSize` rows of `batchSize`
bytes, i.e. input byte `(r, c)` lands at output position `c * batchSize + r`. -/
def transposeBytes (rows cols : Nat) (buf : List Nat) : List Nat :=
  (List.range (cols * rows)).map fun k => buf.getD ((k % rows) * cols + k / rows) 0

/-- The consumer-visible pair produced by the tail of
`DecodeThreadPool::produce`: the decoded data half transposed, and the target
half as assembled by the workers. -/
def produceDeliver (batchSize datumSize : Nat) (s : WorkState) :
    List Nat × List Nat :=
  (transposeBytes batchSize datumSize s.dataBuf, s.targetBuf)

/-- Number of items of the batch decoded after the first `m` workers have run:
the worker ranges chain, so this is `startInd m` capped at `batchSize`. -/
def cumItems (batchSize count m : Nat) : Nat :=
  min (startInd batchSize count m) batchSize

lemma cumItems_zero (b N : Nat) : cumItems b N 0 = 0 := by
  simp [cumItems, startInd]

lemma cumItems_le (b N m : Nat) : cumItems b N m ≤ b :=
  Nat.min_le_right _ _

lemma cumItems_of_lt (b N m : Nat) (hN : 1 ≤ N)
    (h2 : itemsPerThread b N * (N - 1) < b) (hm : m < N) :
    cumItems b N m = startInd b N m := by
  unfold cumItems startInd
  have hle : m * itemsPerThread b N ≤ (N - 1) * itemsPerThread b N :=
    Nat.mul_le_mul_right _ (by omega)
  have hmul : (N - 1) * itemsPerThread b N < b := by
    rw [Nat.mul_comm]; exact h2
  exact Nat.min_eq_left (by omega)

lemma cumItems_count (b N : Nat) (hb : 1 ≤ b) (hN : 1 ≤ N) :
    cumItems b N N = b := by
  unfold cumItems startInd
  have := itemsPerThread_mul_count_ge b N hb hN
  rw [Nat.mul_comm] at this
  exact Nat.min_eq_right this

lemma cumItems_succ (b N m : Nat) (hb : 1 ≤ b) (hN : 1 ≤ N)
    (h2 : itemsPerThread b N * (N - 1) < b) (hm : m < N) :
    cumItems b N (m + 1) = endInd b N m := by
  by_cases hlt : m + 1 < N
  · rw [cumItems_of_lt b N (m + 1) hN h2 hlt,
      endInd_eq_startInd_succ b N m hlt]
  · have hmeq : m = N - 1 := by omega
    have hNm : m + 1 = N := by omega
    rw [hNm, cumItems_count b N hb hN, hmeq, endInd_last b N hN h2]

/-- Success-path characterization of one worker's body: with every item
available, worker `id` fills exactly its data slice with the transforms of its
items, copies its target slice, and increments `_endSignaled`. -/
lemma work_eq_of_complete (b N d ts : Nat)
    (getItem : Nat → Option (List Nat)) (transform : List Nat → List Nat)
    (f : Nat → List Nat) (targetSrc : List Nat) (id : Nat) (s : WorkState)
    (hget : ∀ i, startInd b N id ≤ i → i < endInd b N id → getItem i = some (f i))
    (hT : ∀ i, startInd b N id ≤ i → i < endInd b N id →
      (transform (f i)).length = d)
    (hlen : endInd b N id * d ≤ s.dataBuf.length) :
    work b N d ts getItem transform targetSrc id s
      = { dataBuf := s.dataBuf.take (startInd b N id * d)
            ++ ((List.range' (startInd b N id) (itemCount b N id)).map
                  fun i => transform (f i)).flatten
            ++ s.dataBuf.drop (endInd b N id * d)
          targetBuf := writeBytes s.targetBuf (startInd b N id * ts)
            ((targetSrc.drop (startInd b N id * ts)).take
              (itemCount b N id * ts))
          endSignaled := s.endSignaled + 1 } := by
  have hrun := decodeItems_range' d getItem transform f
    (itemCount b N id) (startInd b N id) s.dataBuf hget hT hlen
  unfold work
  rw [hrun]
  rfl

/-- Invariant for the sequential composition of the first `m` worker bodies:
the data half carries the transforms of the first `cumItems m` items, the
target half the first `cumItems m` targets, and `_endSignaled` has been
incremented `m` times. -/
lemma foldWork_range (b N d ts : Nat) (hb : 1 ≤ b) (hN : 1 ≤ N)
    (h2 : itemsPerThread b N * (N - 1) < b)
    (getItem : Nat → Option (List Nat)) (transform : List Nat → List Nat)
    (f : Nat → List Nat) (targetSrc : List Nat)
    (hget : ∀ i, i < b → getItem i = some (f i))
    (hT : ∀ i, i < b → (transform (f i)).length = d)
    (htlen : targetSrc.length = b * ts)
    (s0 : WorkState) (hdlen : s0.dataBuf.length = b * d)
    (htblen : s0.targetBuf.length = b * ts) (m : Nat) (hm : m ≤ N) :
    (List.range m).foldl
        (fun st id => work b N d ts getItem transform targetSrc id st) s0
      = { dataBuf := ((List.range' 0 (cumItems b N m)).map
              fun i => transform (f i)).flatten
            ++ s0.dataBuf.drop (cumItems b N m * d)
          targetBuf := targetSrc.take (cumItems b N m * ts)
            ++ s0.targetBuf.drop (cumItems b N m * ts)
          endSignaled := s0.endSignaled + m } := by
  induction m with
  | zero =>
      simp only [List.range_zero, List.foldl_nil, cumItems_zero, Nat.zero_mul,
        List.range', List.map_nil, List.flatten_nil, List.drop_zero,
        List.take_zero, List.nil_append, Nat.add_zero]
  | succ m ih =>
      have hmN : m < N := by omega
      have hcm : cumItems b N m = startInd b N m := cumItems_of_lt b N m hN h2 hmN
      have hcs : cumItems b N (m + 1) = endInd b N m := cumItems_succ b N m hb hN h2 hmN
      have hcmb : cumItems b N m ≤ b := cumItems_le b N m
      have hend : endInd b N m ≤ b := endInd_le_batchSize b N m hN h2 hmN
      have hse : startInd b N m ≤ endInd b N m := Nat.le_of_lt
        (startInd_lt_endInd b N m hb hN h2 hmN)
      have hJlen : (((List.range' 0 (cumItems b N m)).map
          fun i => transform (f i)).flatten).length = cumItems b N m * d := by
        apply flatten_map_range'_length
        intro i h1 hi
        exact hT i (by omega)
      rw [List.range_succ, List.foldl_append, List.foldl_cons, List.foldl_nil, ih (by omega)]
      set Sm : WorkState :=
        { dataBuf := ((List.range' 0 (cumItems b N m)).map
              fun i => transform (f i)).flatten
            ++ s0.dataBuf.drop (cumItems b N m * d)
          targetBuf := targetSrc.take (cumItems b N m * ts)
            ++ s0.targetBuf.drop (cumItems b N m * ts)
          endSignaled := s0.endSignaled + m } with hSm
      have hSmdlen : Sm.dataBuf.length = b * d := by
        rw [hSm]
        simp only [List.length_append, List.length_drop, hJlen, hdlen]
        have : cumItems b N m * d ≤ b * d := Nat.mul_le_mul_right _ hcmb
        omega
      have hSmtlen : Sm.targetBuf.length = b * ts := by
        rw [hSm]
        simp only [List.length_append, List.length_take, List.length_drop,
          htlen, htblen]
        have : cumItems b N m * ts ≤ b * ts := Nat.mul_le_mul_right _ hcmb
        omega
      rw [work_eq_of_complete b N d ts getItem transform f targetSrc m Sm
        (fun i h1 h2i => hget i (by omega))
        (fun i h1 h2i => hT i (by omega))
        (by rw [hSmdlen]; exact Nat.mul_le_mul_right _ hend)]
      have hsd : startInd b N m * d ≤ endInd b N m * d := Nat.mul_le_mul_right _ hse
      have hst : startInd b N m * ts ≤ endInd b N m * ts := Nat.mul_le_mul_right _ hse
      have hcd : cumItems b N m * d = startInd b N m * d := by rw [hcm]
      have hct : cumItems b N m * ts = startInd b N m * ts := by rw [hcm]
      -- data half
      have hdata : Sm.dataBuf.take (startInd b N m * d)
            ++ ((List.range' (startInd b N m) (itemCount b N m)).map
                  fun i => transform (f i)).flatten
            ++ Sm.dataBuf.drop (endInd b N m * d)
          = ((List.range' 0 (cumItems b N (m + 1))).map
              fun i => transform (f i)).flatten
            ++ s0.dataBuf.drop (cumItems b N (m + 1) * d) := by
        have htk : Sm.dataBuf.take (startInd b N m * d)
            = ((List.range' 0 (cumItems b N m)).map
                fun i => transform (f i)).flatten := by
          rw [hSm]
          dsimp only
          rw [← hcm, ← hJlen, List.take_left]
        have hdr : Sm.dataBuf.drop (endInd b N m * d)
            = s0.dataBuf.drop (endInd b N m * d) := by
          rw [hSm]
          dsimp only
          have hsplit : endInd b N m * d
              = (((List.range' 0 (cumItems b N m)).map
                  fun i => transform (f i)).flatten).length
                + (endInd b N m * d - cumItems b N m * d) := by
            rw [hJlen]; omega
          rw [hsplit, List.drop_append, List.drop_drop]
          congr 1
          omega
        rw [htk, hdr, hcs]
        congr 1
        rw [← List.flatten_append, ← List.map_append, hcm]
        congr 2
        have hra := List.range'_append 0 (startInd b N m) (itemCount b N m) 1
        simp only [Nat.one_mul, Nat.zero_add] at hra
        rw [hra]
        congr 1
        exact Nat.add_comm _ _
      -- target half
      have hets : endInd b N m * ts
          = startInd b N m * ts + itemCount b N m * ts := by
        show (startInd b N m + itemCount b N m) * ts = _
        ring
      have hT1len : (targetSrc.take (cumItems b N m * ts)).length
          = cumItems b N m * ts := by
        rw [List.length_take, htlen]
        exact Nat.min_eq_left (Nat.mul_le_mul_right _ hcmb)
      have hslicelen : ((targetSrc.drop (startInd b N m * ts)).take
          (itemCount b N m * ts)).length = itemCount b N m * ts := by
        rw [List.length_take, List.length_drop, htlen]
        have : endInd b N m * ts ≤ b * ts := Nat.mul_le_mul_right _ hend
        omega
      have htarget : writeBytes Sm.targetBuf (startInd b N m * ts)
            ((targetSrc.drop (startInd b N m * ts)).take (itemCount b N m * ts))
          = targetSrc.take (cumItems b N (m + 1) * ts)
            ++ s0.targetBuf.drop (cumItems b N (m + 1) * ts) := by
        unfold writeBytes
        have htk2 : Sm.targetBuf.take (startInd b N m * ts)
            = targetSrc.take (startInd b N m * ts) := by
          rw [hSm]
          dsimp only
          rw [← hcm]
          rw [List.take_append_of_le_length (le_of_eq hT1len.symm)]
          rw [List.take_take, Nat.min_self]
        have hdr2 : Sm.targetBuf.drop (startInd b N m * ts
              + ((targetSrc.drop (startInd b N m * ts)).take
                  (itemCount b N m * ts)).length)
            = s0.targetBuf.drop (endInd b N m * ts) := by
          rw [hSm]
          dsimp only
          rw [hslicelen]
          have hsplit : startInd b N m * ts + itemCount b N m * ts
              = (targetSrc.take (cumItems b N m * ts)).length
                + (endInd b N m * ts - cumItems b N m * ts) := by
            rw [hT1len]
            omega
          rw [hsplit, List.drop_append, List.drop_drop]
          congr 1
          omega
        rw [htk2, hdr2, hcs]
        congr 1
        rw [← List.take_add]
        congr 1
        omega
      rw [hdata, htarget, hSm]
      rfl

/-- Full-batch corollary: after every worker has run, the data half is exactly
the concatenation of the per-item transforms in batch order, the target half
is exactly the dense target source, and `_endSignaled` was incremented once
per worker. -/
lemma decodeBatch_eq (b N d ts : Nat) (hb : 1 ≤ b) (hN : 1 ≤ N)
    (h2 : itemsPerThread b N * (N - 1) < b)
    (getItem : Nat → Option (List Nat)) (transform : List Nat → List Nat)
    (f : Nat → List Nat) (targetSrc : List Nat)
    (hget : ∀ i, i < b → getItem i = some (f i))
    (hT : ∀ i, i < b → (transform (f i)).length = d)
    (htlen : targetSrc.length = b * ts)
    (s0 : WorkState) (hdlen : s0.dataBuf.length = b * d)
    (htblen : s0.targetBuf.length = b * ts) :
    decodeBatch b N d ts getItem transform targetSrc s0
      = { dataBuf := ((List.range' 0 b).map fun i => transform (f i)).flatten
          targetBuf := targetSrc
          endSignaled := s0.endSignaled + N } := by
  unfold decodeBatch
  rw [foldWork_range b N d ts hb hN h2 getItem transform f targetSrc hget hT
    htlen s0 hdlen htblen N (le_refl N), cumItems_count b N hb hN]
  congr 1
  · rw [List.drop_of_length_le (le_of_eq hdlen), List.append_nil]
  · rw [List.drop_of_length_le (le_of_eq htblen), List.append_nil]
    exact List.take_of_length_le (le_of_eq htlen)

/-- Status of one decode worker in the per-batch barrier protocol: `idle`
(blocked on `_started`, its `_startSignaled` slot is 0), `signaled`
(`_startSignaled[id] = 1` was set by the manager), `working` (the worker
decremented its slot and is decoding), `done` (it has incremented
`_endSignaled` for this batch). -/
inductive WStatus
  | idle
  | signaled
  | working
  | done
deriving DecidableEq, Repr

/-- The coordination state guarded by the pool's `_mutex`: each worker's
protocol position plus the shared `_endSignaled` counter. -/
structure PoolState (n : Nat) where
  ws : Fin n → WStatus
  endSignaled : Nat

/-- Coordination state at `DecodeThreadPool` construction: `_endSignaled(0)`,
no start signals pending. -/
def initPool (n : Nat) : PoolState n :=
  ⟨fun _ => WStatus.idle, 0⟩

/-- The dispatch/join protocol of `DecodeThreadPool` while batches are in
flight (the shutdown path is excluded): `dispatch` is `produce` setting every
`_startSignaled[i] = 1` — possible only between batches, when every worker
has returned to its wait; `consume i` is worker `i` decrementing its start
slot; `finish i` is worker `i` incrementing `_endSignaled`; `join` is the
manager observing `_endSignaled == _count` and resetting it to 0. -/
inductive PoolStep (n : Nat) : PoolState n → PoolState n → Prop
  | dispatch (s : PoolState n) (h : ∀ i, s.ws i = WStatus.idle) :
      PoolStep n s ⟨fun _ => WStatus.signaled, s.endSignaled⟩
  | consume (s : PoolState n) (i : Fin n) (h : s.ws i = WStatus.signaled) :
      PoolStep n s ⟨Function.update s.ws i WStatus.working, s.endSignaled⟩
  | finish (s : PoolState n) (i : Fin n) (h : s.ws i = WStatus.working) :
      PoolStep n s ⟨Function.update s.ws i WStatus.done, s.endSignaled + 1⟩
  | join (s : PoolState n) (h : s.endSignaled = n) :
      PoolStep n s ⟨fun _ => WStatus.idle, 0⟩

/-- Coordination states reachable from construction. -/
inductive PoolReachable (n : Nat) : PoolState n → Prop
  | init : PoolReachable n (initPool n)
  | step (s t : PoolState n) (hs : PoolReachable n s) (st : PoolStep n s t) :
      PoolReachable n t

/-- The number of workers that already signaled completion of this batch. -/
def doneCount {n : Nat} (s : PoolState n) : Nat :=
  (Finset.univ.filter fun i => s.ws i = WStatus.done).card

/-- Inductive invariant: `_endSignaled` counts exactly the workers that are
`done` with the current batch. -/
lemma endSignaled_eq_doneCount {n : Nat} (s : PoolState n)
    (h : PoolReachable n s) : s.endSignaled = doneCount s := by
  induction h with
  | init => simp [initPool, doneCount]
  | step s t hs st ih =>
      cases st with
      | dispatch hall =>
          have h0 : doneCount s = 0 := by
            unfold doneCount
            rw [Finset.card_eq_zero]
            ext i
            simp [hall i]
          have ht : doneCount (⟨fun _ => WStatus.signaled, s.endSignaled⟩ :
              PoolState n) = 0 := by
            unfold doneCount
            rw [Finset.card_eq_zero]
            ext i
            simp
          show s.endSignaled = _
          rw [ht, ih, h0]
      | consume i hsig =>
          have heq : doneCount (⟨Function.update s.ws i WStatus.working,
              s.endSignaled⟩ : PoolState n) = doneCount s := by
            unfold doneCount
            congr 1
            ext j
            by_cases hj : j = i
            · subst hj
              simp [Function.update_same, hsig]
            · simp [Function.update_noteq hj]
          show s.endSignaled = _
          rw [heq, ih]
      | finish i hw =>
          have hnotin : i ∉ Finset.univ.filter
              (fun j => s.ws j = WStatus.done) := by
            simp [hw]
          have hins : (Finset.univ.filter fun j =>
                Function.update s.ws i WStatus.done j = WStatus.done)
              = insert i (Finset.univ.filter fun j => s.ws j = WStatus.done) := by
            ext j
            by_cases hj : j = i
            · subst hj
              simp [Function.update_same]
            · simp [Function.update_noteq hj, hj]
          show s.endSignaled + 1 = doneCount _
          unfold doneCount
          rw [hins, Finset.card_insert_of_not_mem hnotin, ih]
          rfl
      | join hn =>
          show 0 = doneCount _
          unfold doneCount
          rw [eq_comm, Finset.card_eq_zero]
          ext i
          simp

/-- `doneCount` can never exceed the worker count. -/
lemma doneCount_le {n : Nat} (s : PoolState n) : doneCount s ≤ n := by
  calc doneCount s ≤ Finset.univ.card := Finset.card_filter_le _ _
    _ = n := by simp

/-- Pool operations `ReadThread::produce` may perform on its output
`BufferPool` after the read. -/
inductive ReadEvent
  | advanceWritePos
  | signalNonEmpty
deriving DecidableEq, Repr

/-- Observable outcome of one `ReadThread::produce` cycle: the thread's
`_done` flag, whether a fatal `std::runtime_error` was raised, and the pool
operations performed, in order. -/
structure ReadOutcome where
  done : Bool
  fatal : Bool
  events : List ReadEvent
deriving DecidableEq, Repr

/-- `ReadThread::produce` after `_reader->read(bufPair)` returned
`readResult`: on `-1` it sets `_done = true` and throws
(`throw std::runtime_error("Could not read data")`), performing neither
`advanceWritePos` nor `signalNonEmpty`; otherwise it advances the write
cursor and signals `nonEmpty`. -/
def readProduce (readResult : Int) (done0 : Bool) : ReadOutcome :=
  if readResult = -1 then
    { done := true, fatal := true, events := [] }
  else
    { done := done0, fatal := false,
      events := [ReadEvent.advanceWritePos, ReadEvent.signalNonEmpty] }

/-- The allocations `Loader::start` performs inside its `try` block, in
program order. -/
inductive Alloc
  | readBufs
  | readThreadObj
  | decodeBufs
  | decodeThreadsObj
deriving DecidableEq, Repr

/-- The `Loader` fields `start` touches: the `_first` flag, the four owned
objects (modelled as allocated-or-null), and whether each thread group has
been started. -/
structure LoaderState where
  first : Bool
  readBufs : Bool
  readThread : Bool
  decodeBufs : Bool
  decodeThreads : Bool
  readThreadStarted : Bool
  decodeThreadsStarted : Bool
deriving DecidableEq, Repr

/-- `Loader` fields right after construction: `_first(true)`, all owned
pointers null, no threads running. -/
def loaderInit : LoaderState :=
  { first := true, readBufs := false, readThread := false,
    decodeBufs := false, decodeThreads := false,
    readThreadStarted := false, decodeThreadsStarted := false }

/-- `Loader::start` under an allocation oracle `ok` recording which `new`
calls succeed (a `false` means the allocation throws `std::bad_alloc`):
`_first = true`, then the four allocations in program order — the `catch`
returns `-1` as soon as one throws, leaving the earlier assignments in
place — and on success `_decodeThreads->start()` and `_readThread->start()`
run and `0` is returned. -/
def loaderStart (ok : Alloc → Bool) (s : LoaderState) : Int × LoaderState :=
  let s1 := { s with first := true }
  if ok Alloc.readBufs = false then (-1, s1)
  else
    let s2 := { s1 with readBufs := true }
    if ok Alloc.readThreadObj = false then (-1, s2)
    else
      let s3 := { s2 with readThread := true }
      if ok Alloc.decodeBufs = false then (-1, s3)
      else
        let s4 := { s3 with decodeBufs := true }
        if ok Alloc.decodeThreadsObj = false then (-1, s4)
        else
          let s5 := { s4 with decodeThreads := true }
          (0, { s5 with decodeThreadsStarted := true, readThreadStarted := true })

/-- Pool operations the `Loader::next` overloads perform on `_decodeBufs`,
in order. -/
inductive LEvent
  | waitNonEmpty
  | advanceReadPos
  | signalNonFull
  | copyBytes (n : Nat)
deriving DecidableEq, Repr

/-- Zero-argument `Loader::next()`: on the first call after `start`
(`_first == true`) it only clears `_first`; on every later call it first
releases the previous minibatch (`advanceReadPos`, then `signalNonFull`).
Either way it then blocks until the decode pool is non-empty. Returns the new
`_first` flag and the pool operations performed, in order. -/
def loaderNext (first : Bool) : Bool × List LEvent :=
  if first then
    (false, [LEvent.waitNonEmpty])
  else
    (false, [LEvent.advanceReadPos, LEvent.signalNonFull, LEvent.waitNonEmpty])

/-- The `_first` flag before the `k`-th call (counting from 0) of the
zero-argument `next()` after `start()` (which sets `_first = true`). -/
def firstFlagBefore : Nat → Bool
  | 0 => true
  | k + 1 => (loaderNext (firstFlagBefore k)).1

/-- Two-argument testing `Loader::next(dataBuf, targetsBuf)`: waits on
`nonEmpty`, copies `dataBuf->_size` bytes out of the read slot's data half and
`targetsBuf->_size` bytes out of its target half, then advances the read
cursor and signals `nonFull`. Its body never reads or writes `_first`, so the
flag is returned unchanged and the behavior does not depend on it. -/
def loaderNextCopy (first : Bool) (dataSize targetsSize : Nat)
    (slotData slotTargets : List Nat) :
    Bool × (List Nat × List Nat) × List LEvent :=
  (first,
   (slotData.take dataSize, slotTargets.take targetsSize),
   [LEvent.waitNonEmpty, LEvent.copyBytes dataSize,
    LEvent.copyBytes targetsSize, LEvent.advanceReadPos,
    LEvent.signalNonFull])

/-- The device-copy tail of `DecodeThreadPool::produce`: the minibatch is
copied to device slot `_bufferIndex`, after which
`_bufferIndex = (_bufferIndex == 0) ? 1 : 0`. Returns the slot used for this
minibatch and the next value of `_bufferIndex`. -/
def produceCopySlot (bufferIndex : Nat) : Nat × Nat :=
  (bufferIndex, if bufferIndex = 0 then 1 else 0)

/-- `_bufferIndex` before the `k`-th minibatch since `start` (the constructor
initializes `_bufferIndex(0)`). -/
def bufferIndexBefore : Nat → Nat
  | 0 => 0
  | k + 1 => (produceCopySlot (bufferIndexBefore k)).2

/-- Frame property of one worker's body, on both the success and the early
return paths: worker `id` never touches data bytes outside
`[dataOffset id, endInd id · d)` nor target bytes outside
`[targetOffset id, endInd id · ts)`. -/
lemma work_frame (b N d ts : Nat) (hb : 1 ≤ b) (hN : 1 ≤ N)
    (h2 : itemsPerThread b N * (N - 1) < b)
    (getItem : Nat → Option (List Nat)) (transform : List Nat → List Nat)
    (targetSrc : List Nat) (hT : ∀ x, (transform x).length = d)
    (id : Nat) (hid : id < N) (s : WorkState)
    (hdlen : s.dataBuf.length = b * d) (htblen : s.targetBuf.length = b * ts) :
    ((work b N d ts getItem transform targetSrc id s).dataBuf.take
        (dataOffset b N d id) = s.dataBuf.take (dataOffset b N d id))
    ∧ ((work b N d ts getItem transform targetSrc id s).dataBuf.drop
        (endInd b N id * d) = s.dataBuf.drop (endInd b N id * d))
    ∧ ((work b N d ts getItem transform targetSrc id s).targetBuf.take
        (targetOffset b N ts id) = s.targetBuf.take (targetOffset b N ts id))
    ∧ ((work b N d ts getItem transform targetSrc id s).targetBuf.drop
        (endInd b N id * ts) = s.targetBuf.drop (endInd b N id * ts)) := by
  have hend : endInd b N id ≤ b := endInd_le_batchSize b N id hN h2 hid
  have hse : startInd b N id ≤ endInd b N id := Nat.le_of_lt
    (startInd_lt_endInd b N id hb hN h2 hid)
  have hdb : endInd b N id * d ≤ b * d := Nat.mul_le_mul_right _ hend
  have htb : endInd b N id * ts ≤ b * ts := Nat.mul_le_mul_right _ hend
  have hsd : startInd b N id * d ≤ endInd b N id * d := Nat.mul_le_mul_right _ hse
  have hst : startInd b N id * ts ≤ endInd b N id * ts := Nat.mul_le_mul_right _ hse
  have hets : endInd b N id * ts = startInd b N id * ts + itemCount b N id * ts := by
    show (startInd b N id + itemCount b N id) * ts = _
    ring
  have hto : targetOffset b N ts id = startInd b N id * ts := rfl
  obtain ⟨hflen, hftake, hfdrop⟩ := decodeItems_frame d getItem transform hT
    (itemCount b N id) (startInd b N id) s.dataBuf (by rw [hdlen]; exact hdb)
  unfold work
  cases hdi : decodeItems d getItem transform
      (List.range' (startInd b N id) (itemCount b N id)) s.dataBuf with
  | mk buf2 ok =>
      rw [hdi] at hftake hfdrop
      cases ok with
      | false =>
          exact ⟨hftake _ (le_refl _), hfdrop _ (le_refl _), rfl, rfl⟩
      | true =>
          refine ⟨hftake _ (le_refl _), hfdrop _ (le_refl _), ?_, ?_⟩
          · exact writeBytes_take s.targetBuf _ _ _ (le_refl _) (by omega)
          · apply writeBytes_drop s.targetBuf _ _ _ ?_ ?_
            · have hsl : ((targetSrc.drop (startInd b N id * ts)).take
                  (targetSpan b N ts id)).length ≤ itemCount b N id * ts := by
                rw [List.length_take]
                exact Nat.min_le_left _ _
              show targetOffset b N ts id + _ ≤ _
              unfold targetOffset
              omega
            · have hsl : ((targetSrc.drop (startInd b N id * ts)).take
                  (targetSpan b N ts id)).length ≤ itemCount b N id * ts := by
                rw [List.length_take]
                exact Nat.min_le_left _ _
              show targetOffset b N ts id + _ ≤ _
              unfold targetOffset
              omega

/-- Worker byte intervals on a half with per-item width `D` are pairwise
disjoint. -/
lemma partition_intervals_disjoint (b N D : Nat) (id1 id2 : Nat)
    (h1 : id1 < N) (h2 : id2 < N) (hne : id1 ≠ id2) (j : Nat)
    (hlo : startInd b N id1 * D ≤ j) (hhi : j < endInd b N id1 * D) :
    ¬(startInd b N id2 * D ≤ j ∧ j < endInd b N id2 * D) := by
  rintro ⟨hlo2, hhi2⟩
  rcases Nat.lt_or_ge id1 id2 with hlt | hge
  · have hchain : endInd b N id1 ≤ startInd b N id2 :=
      endInd_le_startInd b N id1 id2 hlt h2
    have : endInd b N id1 * D ≤ startInd b N id2 * D :=
      Nat.mul_le_mul_right _ hchain
    omega
  · have hlt2 : id2 < id1 := by omega
    have hchain : endInd b N id2 ≤ startInd b N id1 :=
      endInd_le_startInd b N id2 id1 hlt2 h1
    have : endInd b N id2 * D ≤ startInd b N id1 * D :=
      Nat.mul_le_mul_right _ hchain
    omega

/-- The union of the worker byte intervals on a half with positive per-item
width `D` is exactly `[0, batchSize · D)`. -/
lemma partition_cover_bytes (b N D : Nat) (hb : 1 ≤ b) (hN : 1 ≤ N)
    (h2 : itemsPerThread b N * (N - 1) < b) (hD : 1 ≤ D) (j : Nat) :
    j < b * D ↔ ∃ id, id < N ∧ startInd b N id * D ≤ j ∧ j < endInd b N id * D := by
  constructor
  · intro hj
    have hdiv : j / D < b := (Nat.div_lt_iff_lt_mul hD).mpr hj
    obtain ⟨id, hidN, hlo, hhi⟩ := exists_covering_worker b N (j / D) hb hN h2 hdiv
    refine ⟨id, hidN, ?_, ?_⟩
    · have h1 : startInd b N id * D ≤ (j / D) * D := Nat.mul_le_mul_right _ hlo
      have h2' : (j / D) * D ≤ j := by
        rw [Nat.mul_comm]
        exact Nat.mul_div_le j D
      omega
    · have h1 : (j / D + 1) * D ≤ endInd b N id * D := Nat.mul_le_mul_right _ hhi
      have h2' : j < (j / D + 1) * D := by
        have hmod := Nat.div_add_mod j D
        have hm : j % D < D := Nat.mod_lt _ hD
        have hexp : (j / D + 1) * D = D * (j / D) + D := by ring
        rw [hexp]
        set p := D * (j / D) with hp
        omega
      omega
  · rintro ⟨id, hidN, hlo, hhi⟩
    have hend : endInd b N id ≤ b := endInd_le_batchSize b N id hN h2 hidN
    have : endInd b N id * D ≤ b * D := Nat.mul_le_mul_right _ hend
    omega

/-- C1: For every minibatch delivered to the consumer, the data half of the
delivered pair equals the transpose (from `batchSize` rows of `datumSize`
bytes to `datumSize` rows of `batchSize` bytes) of the concatenation, over
items `i = 0 .. batchSize-1` in batch order, of `media.transform` applied to
item `i` of the input pair, and the target half equals the concatenation of
the batch's targets in the same order. -/
theorem c1_delivered_minibatch (b N d ts : Nat) (hb : 1 ≤ b) (hN : 1 ≤ N)
    (h2 : itemsPerThread b N * (N - 1) < b)
    (getItem : Nat → Option (List Nat)) (transform : List Nat → List Nat)
    (f : Nat → List Nat) (tgt : Nat → List Nat)
    (hget : ∀ i, i < b → getItem i = some (f i))
    (hT : ∀ i, i < b → (transform (f i)).length = d)
    (htgt : ∀ i, i < b → (tgt i).length = ts)
    (s0 : WorkState) (hdlen : s0.dataBuf.length = b * d)
    (htblen : s0.targetBuf.length = b * ts) :
    produceDeliver b d
        (decodeBatch b N d ts getItem transform
          ((List.range b).map tgt).flatten s0)
      = (transposeBytes b d
           (((List.range b).map fun i => transform (f i)).flatten),
         ((List.range b).map tgt).flatten) := by
  have htlen : (((List.range b).map tgt).flatten).length = b * ts := by
    rw [List.range_eq_range']
    exact flatten_map_range'_length tgt ts b 0 (fun i h1 h2i => htgt i (by omega))
  rw [decodeBatch_eq b N d ts hb hN h2 getItem transform f _ hget hT htlen
    s0 hdlen htblen]
  unfold produceDeliver
  rw [List.range_eq_range']

/-- Witness for C1 at `batchSize = 2`, `N = 2`, `datumSize = targetSize = 1`,
identity-like transform: the delivered pair evaluates to
`([5, 6], [0, 1])`. -/
theorem c1_delivered_minibatch_witness :
    produceDeliver 2 1
        (decodeBatch 2 2 1 1 (fun i => some [i + 5]) (fun x => x)
          (((List.range 2).map fun i => [i]).flatten) ⟨[0, 0], [9, 9], 0⟩)
      = ([5, 6], [0, 1]) :=
  (c1_delivered_minibatch 2 2 1 1 (by decide) (by decide) (by decide)
    (fun i => some [i + 5]) (fun x => x) (fun i => [i + 5]) (fun i => [i])
    (fun i hi => rfl) (fun i hi => rfl) (fun i hi => rfl)
    ⟨[0, 0], [9, 9], 0⟩ rfl rfl).trans (by decide)

/-- C2: the claim states that on every exit of the worker's per-batch body —
success or the null-item error path — `_endSignaled` is incremented. The code
violates this: `work` returns from `if (item == 0) return;` without touching
`_endSignaled` (so the manager's join `endSignaled == N` can never be
reached), while the success path does increment. This theorem evaluates both
paths of the embedded body at `batchSize = count = 1`. -/
theorem c2_null_item_skips_endSignaled :
    (work 1 1 1 1 (fun _ => none) (fun _ => [0]) [7] 0
      ⟨[9], [9], 0⟩).endSignaled = 0
    ∧ (work 1 1 1 1 (fun _ => some [3]) (fun _ => [0]) [7] 0
      ⟨[9], [9], 0⟩).endSignaled = 1 := by
  decide

/-- C3: each worker's writes stay inside its byte slice of each output half,
the slices are pairwise disjoint across workers, and their union covers the
half exactly; stated for the data half with `datumSize` and the target half
with `targetSize`, under the two constructor assertions of
`DecodeThreadPool`. -/
theorem c3_partition_disjoint_cover (b N d ts : Nat) (hb : 1 ≤ b) (hN : 1 ≤ N)
    (h2 : itemsPerThread b N * (N - 1) < b) (hd : 1 ≤ d) (hts : 1 ≤ ts)
    (getItem : Nat → Option (List Nat)) (transform : List Nat → List Nat)
    (targetSrc : List Nat) (hT : ∀ x, (transform x).length = d) :
    (∀ id, id < N → ∀ s : WorkState, s.dataBuf.length = b * d →
      s.targetBuf.length = b * ts →
      ((work b N d ts getItem transform targetSrc id s).dataBuf.take
          (dataOffset b N d id) = s.dataBuf.take (dataOffset b N d id)
        ∧ (work b N d ts getItem transform targetSrc id s).dataBuf.drop
          (endInd b N id * d) = s.dataBuf.drop (endInd b N id * d)
        ∧ (work b N d ts getItem transform targetSrc id s).targetBuf.take
          (targetOffset b N ts id) = s.targetBuf.take (targetOffset b N ts id)
        ∧ (work b N d ts getItem transform targetSrc id s).targetBuf.drop
          (endInd b N id * ts) = s.targetBuf.drop (endInd b N id * ts)))
    ∧ (∀ id1 id2, id1 < N → id2 < N → id1 ≠ id2 → ∀ j,
        dataOffset b N d id1 ≤ j → j < endInd b N id1 * d →
          ¬(dataOffset b N d id2 ≤ j ∧ j < endInd b N id2 * d))
    ∧ (∀ j, j < b * d ↔
        ∃ id, id < N ∧ dataOffset b N d id ≤ j ∧ j < endInd b N id * d)
    ∧ (∀ id1 id2, id1 < N → id2 < N → id1 ≠ id2 → ∀ j,
        targetOffset b N ts id1 ≤ j → j < endInd b N id1 * ts →
          ¬(targetOffset b N ts id2 ≤ j ∧ j < endInd b N id2 * ts))
    ∧ (∀ j, j < b * ts ↔
        ∃ id, id < N ∧ targetOffset b N ts id ≤ j ∧ j < endInd b N id * ts) := by
  refine ⟨?_, ?_, ?_, ?_, ?_⟩
  · intro id hid s hdlen htblen
    exact work_frame b N d ts hb hN h2 getItem transform targetSrc hT id hid
      s hdlen htblen
  · intro id1 id2 h1 h2' hne j hlo hhi
    exact partition_intervals_disjoint b N d id1 id2 h1 h2' hne j hlo hhi
  · intro j
    exact partition_cover_bytes b N d hb hN h2 hd j
  · intro id1 id2 h1 h2' hne j hlo hhi
    exact partition_intervals_disjoint b N ts id1 id2 h1 h2' hne j hlo hhi
  · intro j
    exact partition_cover_bytes b N ts hb hN h2 hts j

/-- Witness for C3 at `batchSize = 2`, `N = 2`, `d = ts = 1`: worker 0's write
leaves the bytes outside its slice alone, byte 0 lies only in worker 0's
interval, and the cover instance at byte 0 holds. -/
theorem c3_partition_disjoint_cover_witness :
    ((work 2 2 1 1 (fun i => some [i]) (fun _ => [0]) [3, 4] 0
        ⟨[7, 8], [5, 6], 0⟩).dataBuf.drop (endInd 2 2 0 * 1)
      = ([7, 8] : List Nat).drop (endInd 2 2 0 * 1))
    ∧ ¬(dataOffset 2 2 1 1 ≤ 0 ∧ 0 < endInd 2 2 1 * 1)
    ∧ (0 < 2 * 1 ↔ ∃ id, id < 2 ∧ dataOffset 2 2 1 id ≤ 0 ∧ 0 < endInd 2 2 id * 1) := by
  have h := c3_partition_disjoint_cover 2 2 1 1 (by decide) (by decide)
    (by decide) (by decide) (by decide) (fun i => some [i]) (fun _ => [0])
    [3, 4] (fun x => rfl)
  exact ⟨(h.1 0 (by decide) ⟨[7, 8], [5, 6], 0⟩ rfl rfl).2.1,
    h.2.1 0 1 (by decide) (by decide) (by decide) 0 (by decide) (by decide),
    h.2.2.1 0⟩

/-- C4: for every `batchSize ≥ 1` and `hardware_concurrency ≥ 1`, the worker
count `N` from `Loader::start` equals
`min(batchSize, ceil(batchSize / ceil(batchSize / hardware_concurrency)))`,
the pool's recomputed `itemsPerThread = ceil(batchSize / N)` satisfies
`itemsPerThread * N ≥ batchSize` and `itemsPerThread * (N - 1) < batchSize`,
`N` is clamped to at most `batchSize`, and no worker's item range is empty. -/
theorem c4_thread_count_sound (b K : Nat) (hb : 1 ≤ b) (hK : 1 ≤ K) :
    threadCount b K = min b ((b - 1) / ((b - 1) / K + 1) + 1)
    ∧ b ≤ itemsPerThread b (threadCount b K) * threadCount b K
    ∧ itemsPerThread b (threadCount b K) * (threadCount b K - 1) < b
    ∧ threadCount b K ≤ b
    ∧ ∀ id, id < threadCount b K →
        startInd b (threadCount b K) id < endInd b (threadCount b K) id := by
  obtain ⟨ha, hb2, hc, hd⟩ := threadCount_partition_sound b K hb hK
  refine ⟨?_, ha, hb2, hc, hd⟩
  unfold threadCount startItemsPerThread
  exact Nat.min_comm _ _

/-- Witness for C4 at `batchSize = 10`, `hardware_concurrency = 6` (where the
naive `ceil(10/6)`-sized split would violate the second assertion): `N = 5`. -/
theorem c4_thread_count_sound_witness :
    threadCount 10 6 = min 10 ((10 - 1) / ((10 - 1) / 6 + 1) + 1)
    ∧ 10 ≤ itemsPerThread 10 (threadCount 10 6) * threadCount 10 6
    ∧ itemsPerThread 10 (threadCount 10 6) * (threadCount 10 6 - 1) < 10
    ∧ threadCount 10 6 ≤ 10
    ∧ ∀ id, id < threadCount 10 6 →
        startInd 10 (threadCount 10 6) id < endInd 10 (threadCount 10 6) id :=
  c4_thread_count_sound 10 6 (by decide) (by decide)

/-- C5: in every coordination state reachable under the dispatch/join
protocol, `_endSignaled` never exceeds the worker count, and whenever a
dispatch is possible (all workers idle between batches — in particular at the
moment each batch is dispatched) `_endSignaled` is 0. -/
theorem c5_endSignaled_bounded (n : Nat) (s : PoolState n)
    (h : PoolReachable n s) :
    s.endSignaled ≤ n ∧ ((∀ i, s.ws i = WStatus.idle) → s.endSignaled = 0) := by
  rw [endSignaled_eq_doneCount s h]
  refine ⟨doneCount_le s, ?_⟩
  intro hall
  unfold doneCount
  rw [Finset.card_eq_zero]
  ext i
  simp [hall i]

/-- Witness for C5: the initial coordination state of a 2-worker pool. -/
theorem c5_endSignaled_bounded_witness :
    (initPool 2).endSignaled ≤ 2
    ∧ ((∀ i, (initPool 2).ws i = WStatus.idle) → (initPool 2).endSignaled = 0) :=
  c5_endSignaled_bounded 2 (initPool 2) (PoolReachable.init)

/-- C6: when `reader.read` on the current write slot returns `-1`,
`ReadThread::produce` sets the thread's terminal `_done` flag and raises a
fatal error, and neither advances the write cursor nor signals `nonEmpty`. -/
theorem c6_read_failure (done0 : Bool) :
    (readProduce (-1) done0).done = true
    ∧ (readProduce (-1) done0).fatal = true
    ∧ ReadEvent.advanceWritePos ∉ (readProduce (-1) done0).events
    ∧ ReadEvent.signalNonEmpty ∉ (readProduce (-1) done0).events := by
  cases done0 <;> decide

/-- C7 counterexample: with the allocation of `_decodeBufs` failing after the
first two allocations succeeded, `start()` returns `-1` with no thread
started, but `_readBufs` and `_readThread` remain allocated in the `Loader` —
partial state does remain, contrary to the claim. -/
theorem c7_partial_state_counterexample :
    (loaderStart (fun a => a != Alloc.decodeBufs) loaderInit).1 = -1
    ∧ ((loaderStart (fun a => a != Alloc.decodeBufs) loaderInit).2).readBufs = true
    ∧ ((loaderStart (fun a => a != Alloc.decodeBufs) loaderInit).2).readThread = true
    ∧ ((loaderStart (fun a => a != Alloc.decodeBufs) loaderInit).2).readThreadStarted = false
    ∧ ((loaderStart (fun a => a != Alloc.decodeBufs) loaderInit).2).decodeThreadsStarted = false := by
  decide

/-- C7 amended: `start()` returns 0 when every allocation succeeds and `-1`
when any allocation fails; on the `-1` path no worker, reader, or manager
thread has been started, though objects allocated before the failing
allocation remain assigned in the `Loader`. -/
theorem c7_start_error_paths (ok : Alloc → Bool) :
    ((∀ a, ok a = true) → (loaderStart ok loaderInit).1 = 0)
    ∧ ((∃ a, ok a = false) → (loaderStart ok loaderInit).1 = -1)
    ∧ ((loaderStart ok loaderInit).1 = -1 →
        ((loaderStart ok loaderInit).2).readThreadStarted = false
        ∧ ((loaderStart ok loaderInit).2).decodeThreadsStarted = false) := by
  refine ⟨fun hall => ?_, fun hex => ?_, fun hm1 => ?_⟩
  · simp [loaderStart, hall Alloc.readBufs, hall Alloc.readThreadObj,
      hall Alloc.decodeBufs, hall Alloc.decodeThreadsObj]
  · obtain ⟨a, ha⟩ := hex
    cases h1 : ok Alloc.readBufs <;>
      cases h2 : ok Alloc.readThreadObj <;>
        cases h3 : ok Alloc.decodeBufs <;>
          cases h4 : ok Alloc.decodeThreadsObj <;>
            simp_all [loaderStart] <;> cases a <;> simp_all
  · cases h1 : ok Alloc.readBufs <;>
      cases h2 : ok Alloc.readThreadObj <;>
        cases h3 : ok Alloc.decodeBufs <;>
          cases h4 : ok Alloc.decodeThreadsObj <;>
            simp_all [loaderStart, loaderInit]

/-- Witness for C7 amended: with every allocation succeeding `start()` returns
0; with `_decodeBufs` failing it returns `-1`. -/
theorem c7_start_error_paths_witness :
    (loaderStart (fun _ => true) loaderInit).1 = 0
    ∧ (loaderStart (fun a => a != Alloc.decodeBufs) loaderInit).1 = -1 :=
  ⟨(c7_start_error_paths (fun _ => true)).1 (fun a => rfl),
   (c7_start_error_paths (fun a => a != Alloc.decodeBufs)).2.1
     ⟨Alloc.decodeBufs, rfl⟩⟩

/-- C8: the first call of the zero-argument `next()` after `start()` only
blocks on `nonEmpty`, without advancing the consumer's read cursor; every
subsequent call advances the read cursor exactly once and signals `nonFull`
before blocking on `nonEmpty`. -/
theorem c8_next_first_call (k : Nat) :
    firstFlagBefore 0 = true
    ∧ (loaderNext (firstFlagBefore 0)).2 = [LEvent.waitNonEmpty]
    ∧ firstFlagBefore (k + 1) = false
    ∧ (loaderNext (firstFlagBefore (k + 1))).2
        = [LEvent.advanceReadPos, LEvent.signalNonFull, LEvent.waitNonEmpty] := by
  have hflag : firstFlagBefore (k + 1) = false := by
    show (loaderNext (firstFlagBefore k)).1 = false
    cases firstFlagBefore k <;> rfl
  refine ⟨rfl, rfl, hflag, ?_⟩
  rw [hflag]
  rfl

/-- C9: `_bufferIndex` starts at 0, stays in `{0, 1}`, and is toggled exactly
once after each minibatch's device copies, so the `k`-th minibatch since
`start()` is copied to device slot `k mod 2` and consecutive minibatches go
to alternating slots. -/
theorem c9_buffer_index_alternates (k : Nat) :
    bufferIndexBefore 0 = 0
    ∧ bufferIndexBefore k = k % 2
    ∧ bufferIndexBefore k ≤ 1
    ∧ (produceCopySlot (bufferIndexBefore k)).1 = k % 2
    ∧ (produceCopySlot (bufferIndexBefore k)).2 = (k + 1) % 2 := by
  have hmod : ∀ m, bufferIndexBefore m = m % 2 := by
    intro m
    induction m with
    | zero => rfl
    | succ m ih =>
        show (produceCopySlot (bufferIndexBefore m)).2 = (m + 1) % 2
        rw [ih]
        simp only [produceCopySlot]
        by_cases h : m % 2 = 0
        · rw [if_pos h]
          omega
        · rw [if_neg h]
          omega
  refine ⟨rfl, hmod k, ?_, ?_, ?_⟩
  · rw [hmod k]; omega
  · exact hmod k
  · show (produceCopySlot (bufferIndexBefore (k + 1 - 1))).2 = (k + 1) % 2
    exact hmod (k + 1)

/-- C10: the two-argument testing `next(dataBuf, targetsBuf)` advances the
decode pool's read cursor and signals `nonFull` on every call — including the
first after `start()`; it never consults or changes `_first` (its behavior is
identical for both flag values), and it copies exactly `dataBuf->_size` data
bytes and `targetsBuf->_size` target bytes out of the current read slot. -/
theorem c10_next_copy_always_advances (first : Bool) (ds ts' : Nat)
    (slotData slotTargets : List Nat) :
    (loaderNextCopy first ds ts' slotData slotTargets).1 = first
    ∧ (loaderNextCopy first ds ts' slotData slotTargets).2
        = (loaderNextCopy (!first) ds ts' slotData slotTargets).2
    ∧ (loaderNextCopy first ds ts' slotData slotTargets).2.2
        = [LEvent.waitNonEmpty, LEvent.copyBytes ds, LEvent.copyBytes ts',
           LEvent.advanceReadPos, LEvent.signalNonFull]
    ∧ (loaderNextCopy first ds ts' slotData slotTargets).2.1.1
        = slotData.take ds
    ∧ (loaderNextCopy first ds ts' slotData slotTargets).2.1.2
        = slotTargets.take ts'
    ∧ ((loaderNextCopy first ds ts' slotData slotTargets).2.2).count
        LEvent.advanceReadPos = 1 := by
  refine ⟨rfl, rfl, rfl, rfl, rfl, ?_⟩
  rfl

end Neon

